import Mathlib

/-!
# dnshub: a DNS fan-out forwarder (`main.go`)

A shallow embedding of `resolve`, `dnsHandler.ServeDNS` and the upstream
list construction of `main`, followed by theorems about them.

Conventions of the embedding

* A Go `string` is a `List Char` (`GoString`).  Byte lengths and byte
  offsets (`len`, `strings.Index`) are computed from the UTF-8 size of the
  characters, so they agree with Go on every well-formed UTF-8 string.
* `time.Duration` is an `int64`: an `Int` kept in range by `wrapInt64`.
  Go's `/` on signed integers truncates toward zero (`Int.tdiv`).
* The network is not a function of the query alone.  Every call of `resolve`
  receives the `World` it runs in: the outcome of `Client.Exchange` at that
  moment, the message id drawn by `dns.Id()` and the library's `dns.Fqdn`.
* The goroutines of `ServeDNS` publish on a buffered channel; the order in
  which the results are received is an input (`arrival`).
-/

namespace dnshub

/-! ## Strings -/

/-- A Go string. -/
abbrev GoString := List Char

/-- Go's `len(s)`: the number of bytes of `s`. -/
def len (s : GoString) : Nat :=
  (s.map Char.utf8Size).sum

/-- Go's `strings.Count(s, sep)` for a one-character separator. -/
def stringsCount (s : GoString) (sep : Char) : Nat :=
  match s with
  | [] => 0
  | c :: rest => (if c = sep then 1 else 0) + stringsCount rest sep

/-- Split at the first occurrence of `sep`: the part before it and the part
after it, or `none` when `sep` does not occur. -/
def cutFirst (s : GoString) (sep : Char) : Option (GoString × GoString) :=
  match s with
  | [] => none
  | c :: rest =>
    if c = sep then some ([], rest)
    else match cutFirst rest sep with
      | none => none
      | some (before, after) => some (c :: before, after)

/-- Split at the last occurrence of `sep`. -/
def cutLast (s : GoString) (sep : Char) : Option (GoString × GoString) :=
  match s with
  | [] => none
  | c :: rest =>
    match cutLast rest sep with
    | some (before, after) => some (c :: before, after)
    | none => if c = sep then some ([], rest) else none

/-- Go's `strings.Index(s, sep)`: byte offset of the first `sep`, or -1. -/
def stringsIndex (s : GoString) (sep : Char) : Int :=
  match cutFirst s sep with
  | none => -1
  | some (before, _) => (len before : Int)

/-- Go's `strings.LastIndex(s, sep)`: byte offset of the last `sep`, or -1. -/
def stringsLastIndex (s : GoString) (sep : Char) : Int :=
  match cutLast s sep with
  | none => -1
  | some (before, _) => (len before : Int)

/-! ## Machine integers and durations -/

/-- Two's-complement wrap of an integer into the `int64` range. -/
def wrapInt64 (x : Int) : Int :=
  (x + 2 ^ 63) % 2 ^ 64 - 2 ^ 63

/-- The constant `time.Second`, in nanoseconds. -/
def timeSecond : Int := 1000000000

/-- The expression `time.Duration(*timeout) * time.Second` for the `uint`
flag value `t`: conversion to `int64`, then a wrapping multiplication. -/
def durationOfSeconds (t : Nat) : Int :=
  wrapInt64 (wrapInt64 (t : Int) * timeSecond)

/-! ## DNS data (library types, reduced to the fields the program touches) -/

/-- A resource record (`dns.RR`). -/
structure RR where
  name : GoString
  rrtype : Nat
  ttl : Nat
  rdata : GoString
deriving DecidableEq, Repr

/-- A question (`dns.Question`). -/
structure Question where
  Name : GoString
  Qtype : Nat
  Qclass : Nat
deriving DecidableEq, Repr

/-- A message (`dns.Msg`). -/
structure Msg where
  Id : Nat
  Response : Bool
  Authoritative : Bool
  RecursionDesired : Bool
  Question : List Question
  Answer : List RR
deriving DecidableEq, Repr

/-- The zero value `new(dns.Msg)`. -/
def newMsg : Msg :=
  { Id := 0, Response := false, Authoritative := false, RecursionDesired := false,
    Question := [], Answer := [] }

/-- A client (`dns.Client`), reduced to its three timeouts. -/
structure Client where
  DialTimeout : Int
  ReadTimeout : Int
  WriteTimeout : Int
deriving DecidableEq, Repr

/-- What one call of `resolve` sees of the outside: the library function
`dns.Fqdn`, the id drawn by `dns.Id()`, and the outcome of
`Client.Exchange` (an error, or the response message). -/
structure World where
  Fqdn : GoString → GoString
  Id : Nat
  Exchange : Client → Msg → GoString → Except GoString Msg

/-- The library's `(*Msg).SetQuestion(z, t)`: fresh id, recursion desired, one
question of class INET. -/
def SetQuestion (m : Msg) (id : Nat) (z : GoString) (t : Nat) : Msg :=
  { m with Id := id, RecursionDesired := true,
           Question := [{ Name := z, Qtype := t, Qclass := 1 }] }

/-- The library's `(*Msg).SetReply(request)`: a response with the id of the
request and its first question; the answer section is left empty. -/
def SetReply (m : Msg) (request : Msg) : Msg :=
  { m with Id := request.Id, Response := true,
           RecursionDesired := request.RecursionDesired,
           Question := request.Question.take 1 }

/-! ## The program's types -/

/-- The struct `serverConfig`. -/
structure serverConfig where
  host : GoString
  domain : GoString
  timeout : Int
deriving DecidableEq, Repr

/-- The struct `dnsHandler` (the cache and its ttl are never read). -/
structure dnsHandler where
  servers : List serverConfig

/-- The struct `orderedResult`. -/
structure orderedResult where
  order : Nat
  answers : List RR
  server : GoString
deriving DecidableEq, Repr

/-! ## `resolve` -/

/-- The function `resolve` of `main.go`:
build the query, set the three client timeouts, exchange; on an error return
an empty slice, otherwise the answer section of the response. -/
def resolve (w : World) (server : GoString) (timeout : Int) (domain : GoString)
    (qtype : Nat) : List RR :=
  let m := SetQuestion newMsg w.Id (w.Fqdn domain) qtype
  let m := { m with RecursionDesired := true }
  let c : Client := { DialTimeout := timeout, ReadTimeout := timeout, WriteTimeout := timeout }
  match w.Exchange c m server with
  | Except.error _ => []
  | Except.ok r => r.Answer

/-! ## `ServeDNS` -/

/-- The arguments of one call of `resolve`, as recorded in a goroutine's
call log. -/
structure ResolveCall where
  server : GoString
  timeout : Int
  domain : GoString
  qtype : Nat
deriving DecidableEq, Repr

/-- The state of one goroutine's loop: the `answers` slice, and the log of
the `resolve` calls made so far. -/
structure LoopState where
  answers : List RR
  calls : List ResolveCall
deriving DecidableEq, Repr

/-- Lines 78-85 of the goroutine: the name `ds_name` to query for `question`,
or `none` when the iteration ends at `continue`. -/
def dsName (cfg : serverConfig) (question : Question) : Option GoString :=
  let ds_name := question.Name
  if stringsCount question.Name '.' = 1 then
    if cfg.domain = [] then
      none
    else
      some (question.Name ++ cfg.domain)
  else
    some ds_name

/-- Lines 91-92 of the goroutine: call `resolve` with half of the upstream's
timeout and append what it returns; the call is recorded in the log. -/
def resolveAndAppend (w : World) (cfg : serverConfig) (st : LoopState)
    (ds_name : GoString) (qtype : Nat) : LoopState :=
  let ans := resolve w cfg.host (Int.tdiv cfg.timeout 2) ds_name qtype
  { answers := st.answers ++ ans,
    calls := st.calls ++ [⟨cfg.host, Int.tdiv cfg.timeout 2, ds_name, qtype⟩] }

/-- One iteration of `for _, question := range r.Question` in the goroutine
of `ServeDNS`, run in world `w`. -/
def questionStep (w : World) (cfg : serverConfig) (st : LoopState) (question : Question) :
    LoopState :=
  match dsName cfg question with
  | none => st
  | some ds_name => resolveAndAppend w cfg st ds_name question.Qtype

/-- The question loop of a goroutine: `net j` is the world in which the
`j`-th question of the request is handled. -/
def questionLoop (net : Nat → World) (cfg : serverConfig) :
    Nat → LoopState → List Question → LoopState
  | _, st, [] => st
  | j, st, question :: rest =>
    questionLoop net cfg (j + 1) (questionStep (net j) cfg st question) rest

/-- The final loop state of the goroutine started for upstream `cfg`. -/
def goroutineRun (net : Nat → World) (cfg : serverConfig) (r : Msg) : LoopState :=
  questionLoop net cfg 0 { answers := [], calls := [] } r.Question

/-- The goroutine body of `ServeDNS`: the value it sends on the channel. -/
def goroutine (net : Nat → World) (order : Nat) (cfg : serverConfig) (r : Msg) :
    orderedResult :=
  { order := order, answers := (goroutineRun net cfg r).answers, server := cfg.host }

/-- The results sent on the channel, listed by upstream index: `net i j` is
the world of upstream `i`'s goroutine at question `j`. -/
def published (net : Nat → Nat → World) (h : dnsHandler) (r : Msg) : List orderedResult :=
  h.servers.enum.map (fun p => goroutine (net p.1) p.1 p.2 r)

/-- Go's `sort.Slice(x, less)`.  The library's algorithm is not stable; the
keys sorted here are pairwise distinct, for which every sorting algorithm
returns the same slice.  Insertion sort stands for it. -/
def sortSlice (x : List orderedResult) (less : orderedResult → orderedResult → Bool) :
    List orderedResult :=
  x.insertionSort (fun a b => less b a = false)

/-- The last loop of `ServeDNS`: the first result with `len(r.answers) > 0`
sets `msg.Answer` and ends the loop. -/
def pickAnswer (msg : Msg) : List orderedResult → Msg
  | [] => msg
  | r :: rest =>
    if r.answers.length > 0 then { msg with Answer := r.answers }
    else pickAnswer msg rest

/-- The method `ServeDNS`: the message handed to `w.WriteMsg`.  The list
`arrival` gives the upstream indices in the order in which their results
are received from the channel. -/
def ServeDNS (net : Nat → Nat → World) (h : dnsHandler) (r : Msg) (arrival : List Nat) :
    Msg :=
  let msg := SetReply newMsg r
  let msg := { msg with Authoritative := true }
  let sent := published net h r
  let results := arrival.filterMap (fun k => sent[k]?)
  let results := sortSlice results (fun a b => decide (a.order < b.order))
  pickAnswer msg results

/-! ## `main`: the upstream list -/

/-- Go's slice expression `s[:n]` for a byte offset `n` on a character boundary. -/
def sliceTo : GoString → Nat → GoString
  | [], _ => []
  | _ :: _, 0 => []
  | c :: rest, n + 1 => c :: sliceTo rest (n + 1 - c.utf8Size)

/-- Go's slice expression `s[n:]` for a byte offset `n` on a character boundary. -/
def sliceFrom : GoString → Nat → GoString
  | [], _ => []
  | c :: rest, 0 => c :: rest
  | c :: rest, n + 1 => sliceFrom rest (n + 1 - c.utf8Size)

/-- The digit loop of Go's `strconv.ParseUint(s, 10, 64)`: `none` at the first
character that is not an ASCII digit (a syntax error), the largest `uint64`
as soon as the value no longer fits (a range error), the value otherwise. -/
def digitsValue : GoString → Nat → Option Nat
  | [], acc => some acc
  | c :: rest, acc =>
    if 48 ≤ c.toNat ∧ c.toNat ≤ 57 then
      if 2 ^ 64 ≤ acc * 10 + (c.toNat - 48) then some (2 ^ 64 - 1)
      else digitsValue rest (acc * 10 + (c.toNat - 48))
    else none

/-- The number returned by Go's `strconv.Atoi(s)` (64-bit `int`); the error it
returns next to it is dropped by the caller.  A syntax error gives 0, a
value out of range gives the nearest bound. -/
def strconvAtoi (s : GoString) : Int :=
  let neg := s.head? = some '-'
  let body := if s.head? = some '-' ∨ s.head? = some '+' then s.tail else s
  if body = [] then 0
  else match digitsValue body 0 with
    | none => 0
    | some v => if neg then - (min v (2 ^ 63) : Nat) else (min v (2 ^ 63 - 1) : Nat)

/-- The verb `%d` of `fmt.Sprintf` on an `int`. -/
def formatInt (n : Int) : GoString :=
  if n < 0 then '-' :: Nat.toDigits 10 n.natAbs else Nat.toDigits 10 n.toNat

/-- Lines 126-140 of `main`: split one `-dns` value into host, port and
search domain. -/
def splitAddr (addr : GoString) : GoString × Int × GoString :=
  let pos := stringsIndex addr '@'
  let host := if pos > 1 then sliceTo addr pos.toNat else addr
  let search := if pos > 1 then sliceFrom addr (pos.toNat + 1) else []
  let pos := stringsLastIndex host ':'
  let port : Int := if pos > 0 then strconvAtoi (sliceFrom host (pos.toNat + 1)) else 53
  let host := if pos > 0 then sliceTo host pos.toNat else host
  (host, port, search)

/-- Lines 148-150 of `main`: the search domain stored for the text after `@`. -/
def storedDomain (search : GoString) : GoString :=
  if len search > 1 ∧ search.getLast? ≠ some '.' then search ++ ['.'] else search

/-- One iteration of `for _, addr := range serverFlags` in `main`. -/
def serverStep (timeout : Nat) (servers : List serverConfig) (addr : GoString) :
    List serverConfig :=
  let (host, port, search) := splitAddr addr
  if host = [] then
    servers
  else
    let sc : serverConfig :=
      { timeout := durationOfSeconds timeout,
        host := host ++ ':' :: formatInt port,
        domain := storedDomain search }
    servers ++ [sc]

/-- The entry appended by `main` when the loop accepted no value. -/
def fallbackServer (timeout : Nat) : serverConfig :=
  { host := "127.0.0.1:53".toList, domain := [], timeout := durationOfSeconds timeout }

/-- Lines 124-160 of `main`: the slice `servers` given to the handler. -/
def buildServers (serverFlags : List GoString) (timeout : Nat) : List serverConfig :=
  let servers := serverFlags.foldl (serverStep timeout) []
  if servers.length = 0 then servers ++ [fallbackServer timeout] else servers

/-! ## Reference definitions used in the statements -/

/-- What one question adds to the answers collected from upstream `cfg`:
nothing when the question is skipped, otherwise the records returned by the
resolver for the name queried. -/
def contribution (w : World) (cfg : serverConfig) (question : Question) : List RR :=
  match dsName cfg question with
  | none => []
  | some ds_name => resolve w cfg.host (Int.tdiv cfg.timeout 2) ds_name question.Qtype

/-- The `resolve` call made for one question, if any. -/
def callFor (cfg : serverConfig) (question : Question) : List ResolveCall :=
  match dsName cfg question with
  | none => []
  | some ds_name => [⟨cfg.host, Int.tdiv cfg.timeout 2, ds_name, question.Qtype⟩]

/-- The answers collected from each upstream, listed by upstream index. -/
def collected (net : Nat → Nat → World) (h : dnsHandler) (r : Msg) : List (List RR) :=
  h.servers.enum.map (fun p => (goroutineRun (net p.1) p.2 r).answers)

/-- The comparison handed to `sort.Slice` in `ServeDNS`, as a relation: `a` may
stand before `b` when `b` is not less than `a`. -/
def notAfter (a b : orderedResult) : Prop :=
  decide (b.order < a.order) = false

instance notAfterDecidable : DecidableRel notAfter :=
  fun a b => instDecidableEqBool (decide (b.order < a.order)) false

/-! ## Concrete inputs -/

/-- A world in which the upstream `10.0.0.1:53` times out and every other
upstream answers each question with one record that names the question and
the upstream. -/
def demoWorld : World :=
  { Fqdn := fun s => s
    Id := 7
    Exchange := fun _ m server =>
      if server = "10.0.0.1:53".toList then Except.error "i/o timeout".toList
      else Except.ok { m with Response := true,
                              Answer := m.Question.map (fun q => ⟨q.Name, q.Qtype, 60, server⟩) } }

/-- An upstream with a search domain. -/
def corpServer : serverConfig :=
  { host := "10.0.0.2:53".toList, domain := "example.com.".toList, timeout := 4000000000 }

/-- An upstream without a search domain. -/
def plainServer : serverConfig :=
  { host := "10.0.0.3:53".toList, domain := [], timeout := 4000000000 }

/-- An upstream that times out. -/
def deadServer : serverConfig :=
  { host := "10.0.0.1:53".toList, domain := "example.com.".toList, timeout := 4000000000 }

/-- The empty loop state a goroutine starts from. -/
def emptyState : LoopState := { answers := [], calls := [] }

/-- An upstream with another search domain. -/
def labServer : serverConfig :=
  { host := "10.0.0.4:53".toList, domain := "lab.".toList, timeout := 4000000000 }

/-- A handler with four upstreams; the first times out and the third has no
search domain. -/
def demoHandler : dnsHandler :=
  { servers := [deadServer, corpServer, plainServer, labServer] }

/-- A request with the single question `foo.` of type A. -/
def demoRequest : Msg :=
  { newMsg with Id := 99, RecursionDesired := true, Question := [⟨"foo.".toList, 1, 1⟩] }

/-- A world whose exchange always succeeds with the answer section `ans`. -/
def answeringWorld (ans : List RR) : World :=
  { Fqdn := fun s => s
    Id := 0
    Exchange := fun _ m _ => Except.ok { m with Response := true, Answer := ans } }

/-- A request with the single qualified question `a.b.` of type A. -/
def qualifiedRequest : Msg :=
  { newMsg with Question := [⟨"a.b.".toList, 1, 1⟩] }

/-! ## Lemmas on strings -/

theorem stringsCount_eq_count (s : GoString) (sep : Char) :
    stringsCount s sep = s.count sep := by
  induction s with
  | nil => rfl
  | cons c rest ih =>
    by_cases hc : c = sep
    · subst hc
      simp [stringsCount, ih, Nat.add_comm]
    · have hne : (c == sep) = false := by simpa using hc
      simp [stringsCount, ih, hc, List.count_cons, hne]

theorem stringsCount_label_dot (L : GoString) (hL : '.' ∉ L) :
    stringsCount (L ++ ['.']) '.' = 1 := by
  rw [stringsCount_eq_count, List.count_append, List.count_eq_zero_of_not_mem hL]
  simp

theorem stringsCount_eq_one_iff (s : GoString) (sep : Char) :
    stringsCount s sep = 1 ↔ ∃ A B : GoString, s = A ++ sep :: B ∧ sep ∉ A ∧ sep ∉ B := by
  rw [stringsCount_eq_count]
  constructor
  · intro h
    have hmem : sep ∈ s := by
      apply List.count_pos_iff.mp
      omega
    obtain ⟨A, B, hAB⟩ := List.append_of_mem hmem
    refine ⟨A, B, hAB, ?_, ?_⟩
    · intro hA
      have := List.count_pos_iff.mpr hA
      rw [hAB, List.count_append, List.count_cons_self] at h
      omega
    · intro hB
      have := List.count_pos_iff.mpr hB
      rw [hAB, List.count_append, List.count_cons_self] at h
      omega
  · rintro ⟨A, B, rfl, hA, hB⟩
    rw [List.count_append, List.count_cons_self, List.count_eq_zero_of_not_mem hA,
      List.count_eq_zero_of_not_mem hB]

/-! ## Lemmas on the question loop -/

theorem questionStep_eq (w : World) (cfg : serverConfig) (st : LoopState) (q : Question) :
    questionStep w cfg st q =
      { answers := st.answers ++ contribution w cfg q, calls := st.calls ++ callFor cfg q } := by
  unfold questionStep contribution callFor
  cases dsName cfg q with
  | none => simp
  | some n => simp [resolveAndAppend]

theorem questionLoop_eq (net : Nat → World) (cfg : serverConfig) (qs : List Question) :
    ∀ (j : Nat) (st : LoopState),
      questionLoop net cfg j st qs =
        { answers := st.answers ++
            ((qs.enumFrom j).map (fun p => contribution (net p.1) cfg p.2)).flatten,
          calls := st.calls ++ ((qs.enumFrom j).map (fun p => callFor cfg p.2)).flatten } := by
  induction qs with
  | nil => intro j st; simp [questionLoop]
  | cons q rest ih =>
    intro j st
    simp [questionLoop, ih, questionStep_eq, List.enumFrom_cons, List.append_assoc]

/-! ## `resolve` swallows errors -/

/-- Claim C5: whatever the exchange with the upstream gives, `resolve` returns
a slice: the empty one when the exchange reports an error, and the answer
section of the response, unchanged, when it succeeds. -/
theorem resolve_error_or_answer (w : World) (server : GoString) (timeout : Int)
    (domain : GoString) (qtype : Nat) :
    (∀ e : GoString,
        w.Exchange ⟨timeout, timeout, timeout⟩
          { SetQuestion newMsg w.Id (w.Fqdn domain) qtype with RecursionDesired := true }
          server = Except.error e →
        resolve w server timeout domain qtype = []) ∧
    (∀ r : Msg,
        w.Exchange ⟨timeout, timeout, timeout⟩
          { SetQuestion newMsg w.Id (w.Fqdn domain) qtype with RecursionDesired := true }
          server = Except.ok r →
        resolve w server timeout domain qtype = r.Answer) := by
  constructor
  · intro e he
    simp only [resolve, he]
  · intro r hr
    simp only [resolve, hr]

/-- Claim C5 at the upstream that times out and at one that answers. -/
theorem resolve_error_or_answer_witness :
    resolve demoWorld "10.0.0.1:53".toList 2000000000 "foo.example.com.".toList 1 = [] ∧
    resolve demoWorld "10.0.0.2:53".toList 2000000000 "foo.example.com.".toList 1
      = [⟨"foo.example.com.".toList, 1, 60, "10.0.0.2:53".toList⟩] :=
  ⟨(resolve_error_or_answer demoWorld "10.0.0.1:53".toList 2000000000
      "foo.example.com.".toList 1).1 "i/o timeout".toList rfl,
   (resolve_error_or_answer demoWorld "10.0.0.2:53".toList 2000000000
      "foo.example.com.".toList 1).2 _ rfl⟩

/-! ## Search-domain expansion -/

/-- Claim C2: for a question whose name is one label followed by the trailing
dot, an upstream with a non-empty search domain makes exactly one `resolve`
call, for the name followed by the search domain, and appends its records;
an upstream with an empty search domain makes no call and leaves the
collected answers as they were. -/
theorem unqualified_expand_or_skip (w : World) (cfg : serverConfig) (st : LoopState)
    (q : Question) (L : GoString) (hname : q.Name = L ++ ['.']) (hL : '.' ∉ L) :
    (cfg.domain ≠ [] →
      (questionStep w cfg st q).calls =
          st.calls ++ [⟨cfg.host, Int.tdiv cfg.timeout 2, q.Name ++ cfg.domain, q.Qtype⟩] ∧
      (questionStep w cfg st q).answers =
          st.answers ++
            resolve w cfg.host (Int.tdiv cfg.timeout 2) (q.Name ++ cfg.domain) q.Qtype) ∧
    (cfg.domain = [] → questionStep w cfg st q = st) := by
  have hcount : stringsCount q.Name '.' = 1 := by
    rw [hname]; exact stringsCount_label_dot L hL
  constructor
  · intro hd
    simp [questionStep, dsName, hcount, hd, resolveAndAppend]
  · intro hd
    simp [questionStep, dsName, hcount, hd]

/-- Claim C2 at the name `foo.`: queried as `foo.example.com.` at the upstream
with search domain `example.com.`, not queried at the one without. -/
theorem unqualified_expand_or_skip_witness :
    (questionStep demoWorld corpServer emptyState ⟨"foo.".toList, 1, 1⟩).calls =
        [⟨"10.0.0.2:53".toList, 2000000000, "foo.example.com.".toList, 1⟩] ∧
    questionStep demoWorld plainServer emptyState ⟨"foo.".toList, 1, 1⟩ = emptyState :=
  ⟨((unqualified_expand_or_skip demoWorld corpServer emptyState ⟨"foo.".toList, 1, 1⟩
      "foo".toList rfl (by decide)).1 (by decide)).1,
   (unqualified_expand_or_skip demoWorld plainServer emptyState ⟨"foo.".toList, 1, 1⟩
      "foo".toList rfl (by decide)).2 rfl⟩

/-- Claim C3: a question whose name has at least two dots is never skipped,
and the one `resolve` call made for it gets the name unchanged, whatever the
search domain of the upstream. -/
theorem qualified_name_unchanged (w : World) (cfg : serverConfig) (st : LoopState)
    (q : Question) (hq : 2 ≤ q.Name.count '.') :
    dsName cfg q = some q.Name ∧
    (questionStep w cfg st q).calls =
        st.calls ++ [⟨cfg.host, Int.tdiv cfg.timeout 2, q.Name, q.Qtype⟩] ∧
    (questionStep w cfg st q).answers =
        st.answers ++ resolve w cfg.host (Int.tdiv cfg.timeout 2) q.Name q.Qtype := by
  have hcount : stringsCount q.Name '.' ≠ 1 := by
    rw [stringsCount_eq_count]; omega
  simp [questionStep, dsName, hcount, resolveAndAppend]

/-- Claim C3 at the name `foo.bar.com.` and an upstream with a search domain. -/
theorem qualified_name_unchanged_witness :
    (questionStep demoWorld corpServer emptyState ⟨"foo.bar.com.".toList, 1, 1⟩).calls =
        [⟨"10.0.0.2:53".toList, 2000000000, "foo.bar.com.".toList, 1⟩] :=
  (qualified_name_unchanged demoWorld corpServer emptyState ⟨"foo.bar.com.".toList, 1, 1⟩
    (by decide)).2.1

/-- Claim C9 fails at the root name, by a missed case of the dot count: `.` has
no label before its dot, yet it counts one dot, so the upstream with search
domain `example.com.` is asked for `.example.com.` instead of `.`, and the
upstream without a search domain is not asked at all. -/
theorem root_name_not_used_as_is :
    (¬ ∃ L : GoString, L ≠ [] ∧ '.' ∉ L ∧ ['.'] = L ++ ['.']) ∧
    (questionStep demoWorld corpServer emptyState ⟨['.'], 2, 1⟩).calls =
        [⟨"10.0.0.2:53".toList, 2000000000, ".example.com.".toList, 2⟩] ∧
    questionStep demoWorld corpServer emptyState ⟨['.'], 2, 1⟩ ≠
        resolveAndAppend demoWorld corpServer emptyState ['.'] 2 ∧
    questionStep demoWorld plainServer emptyState ⟨['.'], 2, 1⟩ = emptyState := by
  refine ⟨?_, by decide, by decide, by decide⟩
  rintro ⟨L, hne, -, hL⟩
  cases L with
  | nil => exact hne rfl
  | cons c rest =>
    have := congrArg List.length hL
    simp at this

/-- Away from the root name, a name that ends with a dot is expanded or
skipped exactly when it is one non-empty label followed by that dot, and is
queried as it is otherwise. -/
theorem single_label_rule_off_root (w : World) (cfg : serverConfig) (st : LoopState)
    (q : Question) (hroot : q.Name ≠ ['.']) (hdot : q.Name.getLast? = some '.') :
    ((∃ L : GoString, L ≠ [] ∧ '.' ∉ L ∧ q.Name = L ++ ['.']) →
      questionStep w cfg st q =
        if cfg.domain = [] then st
        else resolveAndAppend w cfg st (q.Name ++ cfg.domain) q.Qtype) ∧
    ((¬ ∃ L : GoString, L ≠ [] ∧ '.' ∉ L ∧ q.Name = L ++ ['.']) →
      questionStep w cfg st q = resolveAndAppend w cfg st q.Name q.Qtype) := by
  constructor
  · rintro ⟨L, -, hL, hname⟩
    have hcount : stringsCount q.Name '.' = 1 := by
      rw [hname]; exact stringsCount_label_dot L hL
    by_cases hd : cfg.domain = [] <;> simp [questionStep, dsName, hcount, hd]
  · intro h
    have hcount : stringsCount q.Name '.' ≠ 1 := by
      intro hc
      apply h
      have hsplit : q.Name = q.Name.dropLast ++ ['.'] :=
        (List.dropLast_append_getLast? '.' hdot).symm
      refine ⟨q.Name.dropLast, ?_, ?_, hsplit⟩
      · intro hnil
        rw [hnil] at hsplit
        exact hroot hsplit
      · intro hmem
        rw [stringsCount_eq_count, hsplit, List.count_append] at hc
        have := List.count_pos_iff.mpr hmem
        simp at hc
        omega
    simp [questionStep, dsName, hcount]

/-! ## What a goroutine publishes -/

/-- Claim C10: the goroutine of the upstream at index `i` publishes a result
with order `i`, the address of the upstream as server, and as answers the
concatenation, in the order of the questions, of what each question that is
not skipped got from the resolver. -/
theorem goroutine_result (net : Nat → World) (i : Nat) (cfg : serverConfig) (r : Msg) :
    goroutine net i cfg r =
      { order := i,
        answers := (r.Question.enum.map (fun p => contribution (net p.1) cfg p.2)).flatten,
        server := cfg.host } := by
  simp [goroutine, goroutineRun, questionLoop_eq, List.enum]

/-! ## Selection by priority -/

theorem filterMap_getElem?_range (l : List orderedResult) :
    (List.range l.length).filterMap (fun k => l[k]?) = l := by
  induction l with
  | nil => rfl
  | cons x rest ih =>
    rw [List.length_cons, List.range_succ_eq_map, List.filterMap_cons, List.filterMap_map]
    simpa [Function.comp_def] using ih

theorem received_perm (sent : List orderedResult) (arrival : List Nat)
    (harr : arrival.Perm (List.range sent.length)) :
    (arrival.filterMap (fun k => sent[k]?)).Perm sent := by
  have h := List.Perm.filterMap (fun k => sent[k]?) harr
  rwa [filterMap_getElem?_range] at h

theorem published_map_order (net : Nat → Nat → World) (h : dnsHandler) (r : Msg) :
    (published net h r).map (fun x => x.order) = List.range (published net h r).length := by
  simp only [published, List.map_map, List.length_map, List.enum_length]
  rw [← List.enum_map_fst]
  rfl

theorem published_map_answers (net : Nat → Nat → World) (h : dnsHandler) (r : Msg) :
    (published net h r).map (fun x => x.answers) = collected net h r := by
  simp only [published, collected, List.map_map]
  rfl

theorem sortSlice_perm_eq (sent got : List orderedResult)
    (hord : sent.map (fun x => x.order) = List.range sent.length) (hperm : got.Perm sent) :
    sortSlice got (fun a b => decide (a.order < b.order)) = sent := by
  have htotal : IsTotal orderedResult notAfter :=
    ⟨fun a b => by simp only [notAfter, decide_eq_false_iff_not]; omega⟩
  have htrans : IsTrans orderedResult notAfter :=
    ⟨fun a b c => by simp only [notAfter, decide_eq_false_iff_not]; omega⟩
  have hsort : sortSlice got (fun a b => decide (a.order < b.order))
      = List.insertionSort notAfter got := rfl
  have hsorted : List.Pairwise notAfter
      (sortSlice got (fun a b => decide (a.order < b.order))) := by
    rw [hsort]
    exact @List.sorted_insertionSort _ notAfter _ htotal htrans got
  have hp : (sortSlice got (fun a b => decide (a.order < b.order))).Perm sent := by
    rw [hsort]
    exact (List.perm_insertionSort _ got).trans hperm
  have hlt_sent : List.Pairwise (fun a b : orderedResult => a.order < b.order) sent := by
    rw [← List.pairwise_map (f := fun x : orderedResult => x.order) (R := fun a b => a < b), hord]
    exact List.pairwise_lt_range _
  have hnodup : List.Pairwise (fun a b : orderedResult => a.order ≠ b.order)
      (sortSlice got (fun a b => decide (a.order < b.order))) := by
    rw [← List.pairwise_map (f := fun x : orderedResult => x.order) (R := fun a b => a ≠ b)]
    have : ((sortSlice got (fun a b => decide (a.order < b.order))).map
        (fun x => x.order)).Nodup := by
      rw [(hp.map _).nodup_iff, hord]
      exact List.nodup_range _
    exact this
  have hlt_sorted : List.Pairwise (fun a b : orderedResult => a.order < b.order)
      (sortSlice got (fun a b => decide (a.order < b.order))) := by
    refine (hsorted.and hnodup).imp ?_
    intro a b hab
    have h1 := hab.1
    have h2 := hab.2
    simp only [notAfter, decide_eq_false_iff_not] at h1
    omega
  refine List.Perm.eq_of_sorted ?_ hlt_sorted hlt_sent hp
  intro a b _ _ h1 h2
  omega

theorem pickAnswer_first (msg : Msg) (l : List orderedResult) :
    ∀ k : Nat, (l.map (fun x => x.answers)).getD k [] ≠ [] →
      (∀ j : Nat, j < k → (l.map (fun x => x.answers)).getD j [] = []) →
      (pickAnswer msg l).Answer = (l.map (fun x => x.answers)).getD k [] := by
  induction l with
  | nil => intro k hk; simp at hk
  | cons x rest ih =>
    intro k hk hbefore
    cases k with
    | zero =>
      have hx : x.answers ≠ [] := by simpa using hk
      have hpos : x.answers.length > 0 := List.length_pos.mpr hx
      simp [pickAnswer, hpos]
    | succ k =>
      have hx : x.answers = [] := by simpa using hbefore 0 (Nat.succ_pos k)
      have hrest := ih k (by simpa using hk) (fun j hj => by
        simpa using hbefore (j + 1) (Nat.succ_lt_succ hj))
      simpa [pickAnswer, hx] using hrest

theorem pickAnswer_none (msg : Msg) (l : List orderedResult)
    (hall : ∀ k : Nat, (l.map (fun x => x.answers)).getD k [] = []) :
    (pickAnswer msg l).Answer = msg.Answer := by
  induction l with
  | nil => rfl
  | cons x rest ih =>
    have hx : x.answers = [] := by simpa using hall 0
    have hrest := ih (fun k => by simpa using hall (k + 1))
    simpa [pickAnswer, hx] using hrest

/-- Every assignment of collected answers to the upstreams is the outcome of
some run: the theorem on selection below ranges over all of them. -/
theorem collected_any_assignment (h : dnsHandler) (assign : List (List RR))
    (hlen : assign.length = h.servers.length) :
    collected (fun i _ => answeringWorld (assign.getD i [])) h qualifiedRequest = assign := by
  have hrun : ∀ (i : Nat) (cfg : serverConfig),
      (goroutineRun (fun _ => answeringWorld (assign.getD i [])) cfg qualifiedRequest).answers
        = assign.getD i [] := by
    intro i cfg
    have hname : dsName cfg ⟨"a.b.".toList, 1, 1⟩ = some "a.b.".toList := by
      have hc : stringsCount "a.b.".toList '.' ≠ 1 := by decide
      simp only [dsName, hc, if_false]
    simp only [goroutineRun, qualifiedRequest, newMsg, questionLoop, questionStep, hname,
      resolveAndAppend, resolve, answeringWorld, List.nil_append]
  simp only [collected, hrun]
  apply List.ext_getElem?
  intro k
  simp only [List.getElem?_map, List.getElem?_enum]
  by_cases hk : k < h.servers.length
  · have hk2 : k < assign.length := by omega
    simp [List.getD_eq_getElem?_getD, hk, hk2]
  · have hk2 : assign.length ≤ k := by omega
    have hk3 : h.servers.length ≤ k := by omega
    simp [List.getElem?_eq_none hk2, List.getElem?_eq_none hk3]

/-- Claim C1: whatever the upstreams collected and in whatever order their
results are received, the answer section of the reply is the collected
answers of the lowest-index upstream that collected any, and is empty when
no upstream collected any. -/
theorem ServeDNS_priority_order (net : Nat → Nat → World) (h : dnsHandler) (r : Msg)
    (arrival : List Nat) (harr : arrival.Perm (List.range h.servers.length)) :
    (∀ k : Nat, (collected net h r).getD k [] ≠ [] →
        (∀ j : Nat, j < k → (collected net h r).getD j [] = []) →
        (ServeDNS net h r arrival).Answer = (collected net h r).getD k []) ∧
    ((∀ k : Nat, (collected net h r).getD k [] = []) →
        (ServeDNS net h r arrival).Answer = []) := by
  have hlen : (published net h r).length = h.servers.length := by
    simp [published]
  have hsorted : sortSlice (arrival.filterMap (fun k => (published net h r)[k]?))
      (fun a b => decide (a.order < b.order)) = published net h r :=
    sortSlice_perm_eq _ _ (published_map_order net h r)
      (received_perm _ _ (by rw [hlen]; exact harr))
  have hserve : ∀ msg : Msg, pickAnswer msg
      (sortSlice (arrival.filterMap (fun k => (published net h r)[k]?))
        (fun a b => decide (a.order < b.order))) = pickAnswer msg (published net h r) := by
    intro msg; rw [hsorted]
  constructor
  · intro k hk hbefore
    simp only [ServeDNS, hserve]
    rw [← published_map_answers] at hk hbefore ⊢
    exact pickAnswer_first _ _ k hk hbefore
  · intro hall
    simp only [ServeDNS, hserve]
    rw [← published_map_answers] at hall
    rw [pickAnswer_none _ _ hall]
    rfl

/-- Claim C1 with four upstreams whose results arrive in the order 3, 2, 0, 1:
the first upstream times out, so the reply carries what the second one
collected, although the fourth one answered too and arrived first. -/
theorem ServeDNS_priority_order_witness :
    (ServeDNS (fun _ _ => demoWorld) demoHandler demoRequest [3, 2, 0, 1]).Answer =
      [⟨"foo.example.com.".toList, 1, 60, "10.0.0.2:53".toList⟩] ∧
    (collected (fun _ _ => demoWorld) demoHandler demoRequest).getD 3 [] =
      [⟨"foo.lab.".toList, 1, 60, "10.0.0.4:53".toList⟩] :=
  ⟨(ServeDNS_priority_order (fun _ _ => demoWorld) demoHandler demoRequest [3, 2, 0, 1]
      (by decide)).1 1 (by decide) (by decide), by decide⟩

/-! ## The timeout handed to `resolve` -/

theorem durationOfSeconds_even (t : Nat) : (2 : Int) ∣ durationOfSeconds t := by
  simp only [durationOfSeconds, wrapInt64, timeSecond]
  omega

theorem durationOfSeconds_range (t : Nat) :
    -(2 : Int) ^ 63 ≤ durationOfSeconds t ∧ durationOfSeconds t < 2 ^ 63 := by
  simp only [durationOfSeconds, wrapInt64, timeSecond]
  omega

theorem wrapInt64_of_range (x : Int) (hlo : -(2 : Int) ^ 63 ≤ x) (hhi : x < 2 ^ 63) :
    wrapInt64 x = x := by
  simp only [wrapInt64]
  omega

theorem foldl_serverStep_timeout (t : Nat) (flags : List GoString) :
    ∀ acc : List serverConfig, (∀ sc ∈ acc, sc.timeout = durationOfSeconds t) →
      ∀ sc ∈ flags.foldl (serverStep t) acc, sc.timeout = durationOfSeconds t := by
  induction flags with
  | nil => intro acc hacc; simpa using hacc
  | cons addr rest ih =>
    intro acc hacc
    rw [List.foldl_cons]
    apply ih
    intro sc hsc
    unfold serverStep at hsc
    split at hsc
    split at hsc
    · exact hacc sc hsc
    · rcases List.mem_append.mp hsc with h | h
      · exact hacc sc h
      · rw [List.mem_singleton.mp h]

theorem buildServers_timeout (flags : List GoString) (t : Nat) :
    ∀ sc ∈ buildServers flags t, sc.timeout = durationOfSeconds t := by
  intro sc hsc
  have hloop := foldl_serverStep_timeout t flags [] (by simp)
  unfold buildServers at hsc
  simp only at hsc
  split at hsc
  · rcases List.mem_append.mp hsc with h | h
    · exact hloop sc h
    · rw [List.mem_singleton.mp h]; rfl
  · exact hloop sc hsc

theorem goroutineRun_call_timeout (net : Nat → World) (cfg : serverConfig) (r : Msg) :
    ∀ call ∈ (goroutineRun net cfg r).calls, call.timeout = Int.tdiv cfg.timeout 2 := by
  intro call hcall
  simp only [goroutineRun, questionLoop_eq, List.nil_append, List.mem_flatten,
    List.mem_map] at hcall
  obtain ⟨l, ⟨p, -, rfl⟩, hmem⟩ := hcall
  unfold callFor at hmem
  cases hd : dsName cfg p.2 with
  | none => simp [hd] at hmem
  | some n =>
    simp only [hd, List.mem_singleton] at hmem
    rw [hmem]

/-- Claim C4: for every timeout flag value and every upstream built at startup,
each `resolve` call of that upstream's goroutine gets `cfg.timeout/2`, and
twice that value is the upstream's timeout exactly (also as an `int64`
product), the timeout being the wrapped product of the flag value and
`time.Second`. -/
theorem half_timeout_exact (flags : List GoString) (t : Nat) (sc : serverConfig)
    (hsc : sc ∈ buildServers flags t) (net : Nat → World) (r : Msg) (call : ResolveCall)
    (hcall : call ∈ (goroutineRun net sc r).calls) :
    sc.timeout = durationOfSeconds t ∧
    call.timeout = Int.tdiv sc.timeout 2 ∧
    2 * call.timeout = sc.timeout ∧
    wrapInt64 (2 * call.timeout) = sc.timeout := by
  have ht := buildServers_timeout flags t sc hsc
  have hc := goroutineRun_call_timeout net sc r call hcall
  have htwice : 2 * call.timeout = sc.timeout := by
    rw [hc, ht]
    exact Int.mul_tdiv_cancel' (durationOfSeconds_even t)
  refine ⟨ht, hc, htwice, ?_⟩
  rw [htwice, ht]
  exact wrapInt64_of_range _ (durationOfSeconds_range t).1 (durationOfSeconds_range t).2

/-- Claim C4 at a flag value whose nanosecond count wraps: 18446744073 seconds
give a timeout of -709551616 ns, and the call gets -354775808 ns. -/
theorem half_timeout_exact_witness :
    (⟨"8.8.8.8:53".toList, [], -709551616⟩ : serverConfig)
      ∈ buildServers ["8.8.8.8".toList] 18446744073 ∧
    (⟨"8.8.8.8:53".toList, -354775808, "a.b.".toList, 1⟩ : ResolveCall)
      ∈ (goroutineRun (fun _ => demoWorld) ⟨"8.8.8.8:53".toList, [], -709551616⟩
          { newMsg with Question := [⟨"a.b.".toList, 1, 1⟩] }).calls ∧
    2 * (-354775808 : Int) = -709551616 :=
  ⟨by decide, by decide,
   (half_timeout_exact ["8.8.8.8".toList] 18446744073 ⟨"8.8.8.8:53".toList, [], -709551616⟩
      (by decide) (fun _ => demoWorld) { newMsg with Question := [⟨"a.b.".toList, 1, 1⟩] }
      ⟨"8.8.8.8:53".toList, -354775808, "a.b.".toList, 1⟩ (by decide)).2.2.1⟩

/-! ## Lemmas on the parsing of a `-dns` value -/

theorem len_cons (c : Char) (s : GoString) : len (c :: s) = c.utf8Size + len s := by
  simp [len]

theorem len_append (a b : GoString) : len (a ++ b) = len a + len b := by
  simp [len]

theorem len_pos_of_ne_nil (s : GoString) (hs : s ≠ []) : 0 < len s := by
  cases s with
  | nil => exact absurd rfl hs
  | cons c rest =>
    have := Char.utf8Size_pos c
    rw [len_cons]; omega

theorem sliceTo_len_append (a b : GoString) : sliceTo (a ++ b) (len a) = a := by
  induction a with
  | nil => cases b <;> rfl
  | cons c rest ih =>
    have hpos := Char.utf8Size_pos c
    obtain ⟨n, hn⟩ : ∃ n, len (c :: rest) = n + 1 := ⟨len (c :: rest) - 1, by
      rw [len_cons]; omega⟩
    have hsub : n + 1 - c.utf8Size = len rest := by
      rw [len_cons] at hn; omega
    rw [hn, List.cons_append, sliceTo, hsub, ih]

theorem sliceTo_len (a : GoString) : sliceTo a (len a) = a := by
  simpa using sliceTo_len_append a []

theorem sliceFrom_zero (b : GoString) : sliceFrom b 0 = b := by
  cases b <;> rfl

theorem sliceFrom_len_append (a b : GoString) : sliceFrom (a ++ b) (len a) = b := by
  induction a with
  | nil => simpa [len] using sliceFrom_zero b
  | cons c rest ih =>
    have hpos := Char.utf8Size_pos c
    obtain ⟨n, hn⟩ : ∃ n, len (c :: rest) = n + 1 := ⟨len (c :: rest) - 1, by
      rw [len_cons]; omega⟩
    have hsub : n + 1 - c.utf8Size = len rest := by
      rw [len_cons] at hn; omega
    rw [hn, List.cons_append, sliceFrom, hsub, ih]

theorem cutFirst_append (a b : GoString) (sep : Char) (ha : sep ∉ a) :
    cutFirst (a ++ sep :: b) sep = some (a, b) := by
  induction a with
  | nil => simp [cutFirst]
  | cons c rest ih =>
    have hc : c ≠ sep := fun h => ha (by simp [h])
    have hrest : sep ∉ rest := fun h => ha (List.mem_cons_of_mem _ h)
    simp [cutFirst, hc, ih hrest]

theorem cutFirst_none (s : GoString) (sep : Char) (hs : sep ∉ s) : cutFirst s sep = none := by
  induction s with
  | nil => rfl
  | cons c rest ih =>
    have hc : c ≠ sep := fun h => hs (by simp [h])
    have hrest : sep ∉ rest := fun h => hs (List.mem_cons_of_mem _ h)
    simp [cutFirst, hc, ih hrest]

theorem cutFirst_some (s : GoString) (sep : Char) :
    ∀ a b : GoString, cutFirst s sep = some (a, b) → s = a ++ sep :: b := by
  induction s with
  | nil => intro a b h; simp [cutFirst] at h
  | cons c rest ih =>
    intro a b h
    by_cases hc : c = sep
    · simp [cutFirst, hc] at h
      obtain ⟨rfl, rfl⟩ := h
      simp [hc]
    · simp only [cutFirst, hc, if_false] at h
      cases hr : cutFirst rest sep with
      | none => simp [hr] at h
      | some x =>
        obtain ⟨a2, b2⟩ := x
        simp only [hr, Option.some.injEq, Prod.mk.injEq] at h
        obtain ⟨rfl, rfl⟩ := h
        rw [ih a2 b2 hr]; rfl

theorem cutLast_none (s : GoString) (sep : Char) (hs : sep ∉ s) : cutLast s sep = none := by
  induction s with
  | nil => rfl
  | cons c rest ih =>
    have hc : c ≠ sep := fun h => hs (by simp [h])
    have hrest : sep ∉ rest := fun h => hs (List.mem_cons_of_mem _ h)
    simp [cutLast, hc, ih hrest]

theorem cutLast_append (a b : GoString) (sep : Char) (hb : sep ∉ b) :
    cutLast (a ++ sep :: b) sep = some (a, b) := by
  induction a with
  | nil => simp [cutLast, cutLast_none b sep hb]
  | cons c rest ih => simp [cutLast, ih]

theorem cutLast_some (s : GoString) (sep : Char) :
    ∀ a b : GoString, cutLast s sep = some (a, b) → s = a ++ sep :: b := by
  induction s with
  | nil => intro a b h; simp [cutLast] at h
  | cons c rest ih =>
    intro a b h
    cases hr : cutLast rest sep with
    | some x =>
      obtain ⟨a2, b2⟩ := x
      simp only [cutLast, hr, Option.some.injEq, Prod.mk.injEq] at h
      obtain ⟨rfl, rfl⟩ := h
      rw [ih a2 b2 hr]; rfl
    | none =>
      by_cases hc : c = sep
      · simp [cutLast, hr, hc] at h
        obtain ⟨rfl, rfl⟩ := h
        simp [hc]
      · simp [cutLast, hr, hc] at h

/-- The splitting of a `-dns` value, with the byte offsets resolved: the text
before the first `@` is the host part when it has at least two bytes, and
the text after the last `:` of the host part is the port when at least one
byte stands before it. -/
theorem splitAddr_eq (addr : GoString) :
    splitAddr addr =
      (let hs : GoString × GoString :=
        match cutFirst addr '@' with
        | some (a, b) => if 1 < len a then (a, b) else (addr, [])
        | none => (addr, [])
       match cutLast hs.1 ':' with
       | some (a, b) => if 0 < len a then (a, strconvAtoi b, hs.2) else (hs.1, 53, hs.2)
       | none => (hs.1, 53, hs.2)) := by
  have hat : ('@' : Char).utf8Size = 1 := by decide
  have hcolon : (':' : Char).utf8Size = 1 := by decide
  have hfirst : (if stringsIndex addr '@' > 1 then sliceTo addr (stringsIndex addr '@').toNat
        else addr,
      if stringsIndex addr '@' > 1 then sliceFrom addr ((stringsIndex addr '@').toNat + 1)
        else []) =
      (match cutFirst addr '@' with
        | some (a, b) => if 1 < len a then (a, b) else (addr, [])
        | none => (addr, [])) := by
    unfold stringsIndex
    cases hc : cutFirst addr '@' with
    | none => simp
    | some x =>
      obtain ⟨a, b⟩ := x
      have haddr := cutFirst_some addr '@' a b hc
      by_cases hl : 1 < len a
      · have hl2 : (len a : Int) > 1 := by omega
        have h1 : sliceTo addr (len a) = a := by rw [haddr]; exact sliceTo_len_append a _
        have h2 : sliceFrom addr (len a + 1) = b := by
          have := sliceFrom_len_append (a ++ ['@']) b
          rw [len_append, show len ['@'] = 1 from by decide] at this
          rw [haddr]; simpa using this
        simp [hl, hl2, h1, h2]
      · have hl2 : ¬ (len a : Int) > 1 := by omega
        simp [hl, hl2]
  have hsecond : ∀ (host search : GoString),
      (if stringsLastIndex host ':' > 0 then sliceTo host (stringsLastIndex host ':').toNat
        else host,
       (if stringsLastIndex host ':' > 0 then
          strconvAtoi (sliceFrom host ((stringsLastIndex host ':').toNat + 1)) else 53 : Int),
       search) =
      (match cutLast host ':' with
       | some (a, b) => if 0 < len a then (a, strconvAtoi b, search) else (host, 53, search)
       | none => (host, 53, search)) := by
    intro host search
    unfold stringsLastIndex
    cases hc : cutLast host ':' with
    | none => simp
    | some x =>
      obtain ⟨a, b⟩ := x
      have hhost := cutLast_some host ':' a b hc
      by_cases hl : 0 < len a
      · have hl2 : (len a : Int) > 0 := by omega
        have h1 : sliceTo host (len a) = a := by rw [hhost]; exact sliceTo_len_append a _
        have h2 : sliceFrom host (len a + 1) = b := by
          have := sliceFrom_len_append (a ++ [':']) b
          rw [len_append, show len [':'] = 1 from by decide] at this
          rw [hhost]; simpa using this
        simp [hl, hl2, h1, h2]
      · have hl2 : ¬ (len a : Int) > 0 := by omega
        simp [hl, hl2]
  unfold splitAddr
  simp only []
  rw [← hfirst]
  exact hsecond _ _

theorem splitAddr_host_nil_iff (addr : GoString) : (splitAddr addr).1 = [] ↔ addr = [] := by
  constructor
  · intro h
    by_contra hne
    rw [splitAddr_eq] at h
    have hhs : (match cutFirst addr '@' with
        | some (a, b) => if 1 < len a then (a, b) else (addr, [])
        | none => (addr, []) : GoString × GoString).1 ≠ [] := by
      cases hc : cutFirst addr '@' with
      | none => simpa using hne
      | some x =>
        obtain ⟨a, b⟩ := x
        by_cases hl : 1 < len a
        · have : a ≠ [] := by
            intro ha; rw [ha] at hl; simp [len] at hl
          simpa [hl] using this
        · simpa [hl] using hne
    revert h hhs
    generalize (match cutFirst addr '@' with
        | some (a, b) => if 1 < len a then (a, b) else (addr, [])
        | none => (addr, []) : GoString × GoString) = hs
    intro h hhs
    simp only at h
    cases hc : cutLast hs.1 ':' with
    | none => rw [hc] at h; exact hhs h
    | some x =>
      obtain ⟨a, b⟩ := x
      rw [hc] at h
      by_cases hl : 0 < len a
      · have : a ≠ [] := by
          intro ha; rw [ha] at hl; simp [len] at hl
        simp only [hl, if_true] at h
        exact this h
      · simp only [hl, if_false] at h
        exact hhs h
  · intro h
    rw [h]; rfl

theorem digitChar_toNat (k : Nat) (hk : k < 10) : (Nat.digitChar k).toNat = 48 + k := by
  interval_cases k <;> rfl

theorem mem_toDigitsCore (fuel : Nat) :
    ∀ (n : Nat) (ds : List Char), ∀ c ∈ Nat.toDigitsCore 10 fuel n ds,
      c ∈ ds ∨ (48 ≤ c.toNat ∧ c.toNat ≤ 57) := by
  induction fuel with
  | zero => intro n ds c hc; left; simpa [Nat.toDigitsCore] using hc
  | succ fuel ih =>
    intro n ds c hc
    have hd := digitChar_toNat (n % 10) (Nat.mod_lt _ (by decide))
    simp only [Nat.toDigitsCore] at hc
    split at hc
    · rcases List.mem_cons.mp hc with h | h
      · right; rw [h, hd]; omega
      · left; exact h
    · rcases ih _ _ c hc with h | h
      · rcases List.mem_cons.mp h with h2 | h2
        · right; rw [h2, hd]; omega
        · left; exact h2
      · right; exact h

theorem mem_toDigits (n : Nat) : ∀ c ∈ Nat.toDigits 10 n, 48 ≤ c.toNat ∧ c.toNat ≤ 57 := by
  intro c hc
  rcases mem_toDigitsCore _ _ _ c hc with h | h
  · simp at h
  · exact h

theorem toDigitsCore_ne_nil (fuel : Nat) :
    ∀ (n : Nat) (ds : List Char), ds ≠ [] → Nat.toDigitsCore 10 fuel n ds ≠ [] := by
  induction fuel with
  | zero => intro n ds h; simpa [Nat.toDigitsCore] using h
  | succ fuel ih =>
    intro n ds _
    simp only [Nat.toDigitsCore]
    split
    · simp
    · exact ih _ _ (by simp)

theorem toDigits_ne_nil (n : Nat) : Nat.toDigits 10 n ≠ [] := by
  unfold Nat.toDigits
  simp only [Nat.toDigitsCore]
  split
  · simp
  · exact toDigitsCore_ne_nil _ _ _ (by simp)

theorem digitsValue_toDigitsCore (fuel : Nat) :
    ∀ (n : Nat) (ds : List Char), n < fuel → n < 2 ^ 64 →
      digitsValue (Nat.toDigitsCore 10 fuel n ds) 0 = digitsValue ds n := by
  induction fuel with
  | zero => intro n ds h; omega
  | succ fuel ih =>
    intro n ds hfuel hn
    have hd := digitChar_toNat (n % 10) (Nat.mod_lt _ (by decide))
    have hstep : ∀ acc : Nat, acc * 10 + n % 10 = n →
        digitsValue (Nat.digitChar (n % 10) :: ds) acc = digitsValue ds n := by
      intro acc hacc
      have h1 : 48 ≤ (Nat.digitChar (n % 10)).toNat ∧ (Nat.digitChar (n % 10)).toNat ≤ 57 := by
        rw [hd]; omega
      have h2 : (Nat.digitChar (n % 10)).toNat - 48 = n % 10 := by rw [hd]; omega
      have h3 : ¬ 2 ^ 64 ≤ n := by omega
      simp only [digitsValue, h1, h2, h3, and_self, if_true, if_false, hacc]
    simp only [Nat.toDigitsCore]
    split
    · rename_i hz
      exact hstep 0 (by omega)
    · rename_i hz
      rw [ih (n / 10) _ (by omega) (by omega)]
      exact hstep (n / 10) (by omega)

theorem strconvAtoi_toDigits (p : Nat) (hp : p < 2 ^ 63) :
    strconvAtoi (Nat.toDigits 10 p) = (p : Int) := by
  have hne := toDigits_ne_nil p
  have hval : digitsValue (Nat.toDigits 10 p) 0 = some p := by
    unfold Nat.toDigits
    rw [digitsValue_toDigitsCore _ _ _ (by omega) (by omega)]
    rfl
  have hhead : ∀ c : Char, (48 ≤ c.toNat ∧ c.toNat ≤ 57 → False) →
      (Nat.toDigits 10 p).head? ≠ some c := by
    intro c hc hh
    exact hc (mem_toDigits p c (List.mem_of_mem_head? hh))
  have hminus := hhead '-' (by decide)
  have hplus := hhead '+' (by decide)
  have hmin : min p (2 ^ 63 - 1) = p := by omega
  simp [strconvAtoi, hminus, hplus, hne, hval]
  omega

theorem formatInt_natCast (p : Nat) : formatInt (p : Int) = Nat.toDigits 10 p := by
  have : ¬ ((p : Int) < 0) := by omega
  simp [formatInt, this]

theorem not_mem_toDigits (p : Nat) (c : Char) (hc : 48 ≤ c.toNat ∧ c.toNat ≤ 57 → False) :
    c ∉ Nat.toDigits 10 p :=
  fun h => hc (mem_toDigits p c h)

theorem splitAddr_host (h : GoString) (hat : '@' ∉ h) (hcolon : ':' ∉ h) :
    splitAddr h = (h, 53, []) := by
  rw [splitAddr_eq, cutFirst_none h '@' hat]
  simp only [cutLast_none h ':' hcolon]

theorem splitAddr_host_port (h : GoString) (p : Nat) (hne : h ≠ []) (hat : '@' ∉ h)
    (hp : p < 2 ^ 63) :
    splitAddr (h ++ ':' :: Nat.toDigits 10 p) = (h, (p : Int), []) := by
  have hat2 : '@' ∉ h ++ ':' :: Nat.toDigits 10 p := by
    have := not_mem_toDigits p '@' (by decide)
    simp [hat, this]
  have hlen := len_pos_of_ne_nil h hne
  rw [splitAddr_eq, cutFirst_none _ '@' hat2]
  simp only [cutLast_append h _ ':' (not_mem_toDigits p ':' (by decide)), hlen, if_true,
    strconvAtoi_toDigits p hp]

theorem splitAddr_host_domain (h d : GoString) (hlen : 1 < len h) (hat : '@' ∉ h)
    (hcolon : ':' ∉ h) :
    splitAddr (h ++ '@' :: d) = (h, 53, d) := by
  rw [splitAddr_eq, cutFirst_append h d '@' hat]
  simp only [hlen, if_true, cutLast_none h ':' hcolon]

theorem splitAddr_host_port_domain (h d : GoString) (p : Nat) (hne : h ≠ []) (hat : '@' ∉ h)
    (hp : p < 2 ^ 63) :
    splitAddr (h ++ ':' :: Nat.toDigits 10 p ++ '@' :: d) = (h, (p : Int), d) := by
  have hat2 : '@' ∉ h ++ ':' :: Nat.toDigits 10 p := by
    have := not_mem_toDigits p '@' (by decide)
    simp [hat, this]
  have hlen := len_pos_of_ne_nil h hne
  have hdig := len_pos_of_ne_nil _ (toDigits_ne_nil p)
  have hlen2 : 1 < len (h ++ ':' :: Nat.toDigits 10 p) := by
    rw [len_append, len_cons]
    have := Char.utf8Size_pos ':'
    omega
  rw [splitAddr_eq, cutFirst_append _ d '@' hat2]
  simp only [hlen2, if_true, cutLast_append h _ ':' (not_mem_toDigits p ':' (by decide)), hlen,
    strconvAtoi_toDigits p hp]

theorem buildServers_single (addr : GoString) (t : Nat) (host search : GoString) (port : Int)
    (hsplit : splitAddr addr = (host, port, search)) (hne : host ≠ []) :
    buildServers [addr] t =
      [⟨host ++ ':' :: formatInt port, storedDomain search, durationOfSeconds t⟩] := by
  simp [buildServers, serverStep, hsplit, hne]

/-- The four forms of a `-dns` value, for a host without `:` and `@`: the port
defaults to 53 and the text after `@` goes to the search domain; the form
`host@domain` needs a host of at least two bytes. -/
theorem dns_value_forms (t : Nat) (h d : GoString) (p : Nat) (hne : h ≠ []) (hat : '@' ∉ h)
    (hcolon : ':' ∉ h) (hp : p ≤ 65535) :
    buildServers [h] t = [⟨h ++ ":53".toList, [], durationOfSeconds t⟩] ∧
    buildServers [h ++ ':' :: Nat.toDigits 10 p] t =
      [⟨h ++ ':' :: Nat.toDigits 10 p, [], durationOfSeconds t⟩] ∧
    (1 < len h → buildServers [h ++ '@' :: d] t =
      [⟨h ++ ":53".toList, storedDomain d, durationOfSeconds t⟩]) ∧
    buildServers [h ++ ':' :: Nat.toDigits 10 p ++ '@' :: d] t =
      [⟨h ++ ':' :: Nat.toDigits 10 p, storedDomain d, durationOfSeconds t⟩] := by
  have hp2 : p < 2 ^ 63 := by omega
  have h53 : formatInt 53 = "53".toList := by decide
  refine ⟨?_, ?_, ?_, ?_⟩
  · rw [buildServers_single h t h [] 53 (splitAddr_host h hat hcolon) hne, h53]
    rfl
  · rw [buildServers_single _ t h [] p (splitAddr_host_port h p hne hat hp2) hne,
      formatInt_natCast]
    rfl
  · intro hlen
    rw [buildServers_single _ t h d 53 (splitAddr_host_domain h d hlen hat hcolon) hne, h53]
    rfl
  · rw [buildServers_single _ t h d p (splitAddr_host_port_domain h d p hne hat hp2) hne,
      formatInt_natCast]

/-! ## The upstream list built by `main` -/

theorem foldl_serverStep_skipped (t : Nat) (flags : List GoString)
    (hskip : ∀ addr ∈ flags, (splitAddr addr).1 = []) :
    ∀ acc : List serverConfig, flags.foldl (serverStep t) acc = acc := by
  induction flags with
  | nil => intro acc; rfl
  | cons addr rest ih =>
    intro acc
    have hstep : serverStep t acc addr = acc := by
      have h0 := hskip addr (List.mem_cons_self _ _)
      unfold serverStep
      split
      rename_i host port search heq
      have hhost : host = [] := by rw [heq] at h0; exact h0
      simp [hhost]
    rw [List.foldl_cons, hstep]
    exact ih (fun a ha => hskip a (List.mem_cons_of_mem _ ha)) acc

/-- Claim C6: the upstream list built at startup is never empty, and when every
`-dns` value is skipped (also when there is none) it is the single entry
`127.0.0.1:53` with no search domain and the configured timeout. -/
theorem servers_never_empty (flags : List GoString) (t : Nat) :
    buildServers flags t ≠ [] ∧
    ((∀ addr ∈ flags, (splitAddr addr).1 = []) →
      buildServers flags t =
        [{ host := "127.0.0.1:53".toList, domain := [], timeout := durationOfSeconds t }]) := by
  constructor
  · unfold buildServers
    simp only
    split
    · simp
    · rename_i hlen
      intro hnil
      rw [hnil] at hlen
      exact hlen rfl
  · intro hskip
    unfold buildServers
    simp [foldl_serverStep_skipped t flags hskip [], fallbackServer]

/-- Claim C6 at two empty `-dns` values, both skipped, with the default timeout
of 4 seconds. -/
theorem servers_never_empty_witness :
    buildServers [[], []] 4 = [⟨"127.0.0.1:53".toList, [], 4000000000⟩] :=
  (servers_never_empty [[], []] 4).2 (by decide)

/-- The search domain stored at startup is empty or ends with a dot unless the
text after `@` is a single byte. -/
theorem storedDomain_dot (search : GoString) (hlen : len search ≠ 1) :
    storedDomain search = [] ∨ (storedDomain search).getLast? = some '.' := by
  unfold storedDomain
  split
  · right; simp
  · rename_i hcond
    by_cases hlast : search.getLast? = some '.'
    · right; exact hlast
    · left
      have hle : len search ≤ 1 := by
        by_contra hgt
        exact hcond ⟨by omega, hlast⟩
      cases search with
      | nil => rfl
      | cons c rest =>
        exfalso
        have hpos : 0 < c.utf8Size := Char.utf8Size_pos c
        have hsum : len (c :: rest) = c.utf8Size + len rest := by simp [len]
        cases rest with
        | nil =>
          have hc : len [c] = c.utf8Size := by simp [len]
          have h4 := Char.utf8Size_le_four c
          have hne : c ≠ '.' := by simpa using hlast
          rw [hc] at hle hlen
          omega
        | cons d rest2 =>
          have hd : 0 < d.utf8Size := Char.utf8Size_pos d
          have hsum2 : len (d :: rest2) = d.utf8Size + len rest2 := by simp [len]
          omega

/-- Claim C7 fails at `-dns 1.1.1.1@x`: the value is accepted and the search
domain stored is `x`, not empty and without the dot. -/
theorem one_byte_search_domain_gets_no_dot :
    buildServers ["1.1.1.1@x".toList] 4 = [⟨"1.1.1.1:53".toList, "x".toList, 4000000000⟩] ∧
    storedDomain "x".toList = "x".toList ∧
    storedDomain "xy".toList = "xy.".toList := by
  decide

/-- Claim C8 fails at `-dns a@x`: with a one-byte host the `@` is not taken as
the separator, the address keeps it and no search domain is stored, while
`a`, `a:5353` and `a:5353@x` give the addresses `a:53`, `a:5353` and
`a:5353`. -/
theorem one_byte_host_keeps_at_sign :
    buildServers ["a@x".toList] 4 = [⟨"a@x:53".toList, [], 4000000000⟩] ∧
    buildServers ["a".toList] 4 = [⟨"a:53".toList, [], 4000000000⟩] ∧
    buildServers ["a:5353".toList] 4 = [⟨"a:5353".toList, [], 4000000000⟩] ∧
    buildServers ["a:5353@x".toList] 4 = [⟨"a:5353".toList, "x".toList, 4000000000⟩] ∧
    buildServers ["ab@xy".toList] 4 = [⟨"ab:53".toList, "xy.".toList, 4000000000⟩] := by
  decide

end dnshub
